import Mathlib

/-!
Verification development for the rs-tiler repository (src/src/main.rs).

The board / tile machinery (RectangularBoard, Tile, TilePosition) lives in the
external crate tilelib and is out of scope for the repository: it is consumed
through a narrow interface (get_unmarked_position, tile_fits_at_position,
mark_tile_at_position, is_all_marked).  We embed that interface as a structure
of pure operations over abstract types B (boards), T (tiles), P (positions)
and TP (tile placements), exactly the operations main.rs calls.

Rust HashSet / HashMap values are modelled as insertion-ordered lists without
duplicate keys (a deterministic refinement of the unspecified hash iteration
order); Vec push / pop are modelled at the matching end of a list.  The
unbounded while-loops take a fuel parameter; Res distinguishes a returned
value from a panic (HashMap index on a missing key, failed assert) and from
fuel exhaustion (an artifact of the embedding, never a program behaviour).
-/

/-- Outcome of running an embedded Rust function: a value, a panic
(failed assert or indexing a map at a missing key), or fuel exhaustion. -/
inductive Res (α : Type) where
  | ok (a : α)
  | panicked
  | fuelout
deriving DecidableEq

/-- Res.isPanic is true exactly on the panic outcome. -/
def Res.isPanic {α : Type} : Res α → Bool
  | Res.panicked => true
  | _ => false

/-- Association-list lookup, the model of HashMap indexing: first entry wins. -/
def alookup {κ α : Type} [DecidableEq κ] : List (κ × α) → κ → Option α
  | [], _ => none
  | (k, v) :: rest, b => if b = k then some v else alookup rest b

/-- Lookup with default 0, for count maps. -/
def alookupD {κ : Type} [DecidableEq κ] (m : List (κ × Nat)) (k : κ) : Nat :=
  (alookup m k).getD 0

/-- Model of counter.entry(k).or_insert(0) += n on a HashMap. -/
def addCount {κ : Type} [DecidableEq κ] : List (κ × Nat) → κ → Nat → List (κ × Nat)
  | [], b, n => [(b, n)]
  | (k, v) :: rest, b, n =>
    if b = k then (k, v + n) :: rest else (k, v) :: addCount rest b n

/-- Model of HashSet.insert (and of Vec contains-check-then-push dedup). -/
def insertSet {α : Type} [DecidableEq α] (l : List α) (x : α) : List α :=
  if x ∈ l then l else l ++ [x]

/-- Model of HashSet.extend. -/
def insertAll {α : Type} [DecidableEq α] (s : List α) (l : List α) : List α :=
  l.foldl insertSet s

/-- Pair every list element with its index, starting at n. -/
def withIdx {α : Type} : List α → Nat → List (α × Nat)
  | [], _ => []
  | x :: xs, n => (x, n) :: withIdx xs (n + 1)

/-- Model of hashm.entry(k).or_insert_with(Vec::new).extend(v). -/
def entryExtend {κ α : Type} [DecidableEq κ] :
    List (κ × List α) → κ → List α → List (κ × List α)
  | [], k, v => [(k, v)]
  | (a, l) :: rest, k, v =>
    if k = a then (a, l ++ v) :: rest else (a, l) :: entryExtend rest k v

/-- Option-propagating fold, the model of a loop whose body can panic. -/
def foldOpt {γ α : Type} (f : γ → α → Option γ) : γ → List α → Option γ
  | acc, [] => some acc
  | acc, x :: xs =>
    match f acc x with
    | none => none
    | some acc2 => foldOpt f acc2 xs

/-- Option-propagating map, the model of expanding every frontier element. -/
def mapOpt {α β : Type} (f : α → Option β) : List α → Option (List β)
  | [] => some []
  | x :: xs =>
    match f x, mapOpt f xs with
    | some y, some ys => some (y :: ys)
    | _, _ => none

/-- Concatenation of a list of lists. -/
def concatAll {α : Type} : List (List α) → List α
  | [] => []
  | l :: ls => l ++ concatAll ls

/-- Model of the repeated assignment completed = Some(b) over a list:
the last element wins, an empty list keeps the previous value. -/
def lastCompleted {α : Type} (l : List α) (c : Option α) : Option α :=
  l.foldl (fun _ b => some b) c

/-- The narrow tilelib interface consumed by main.rs: board introspection,
the feasibility test, and tile application.  All operations are pure. -/
structure ExtOps (B T P TP : Type) where
  get_unmarked_position : B → List T → Option P
  directions_len : T → Nat
  tile_fits_at_position : B → T → P → Nat → Option TP
  mark_tile_at_position : B → TP → B
  is_all_marked : B → Bool

/-- The fitting_tiles loop shared by all three algorithms (main.rs 85-93,
155-163, 239-247): for every tile and every start_index in 0..=directions.len(),
query the feasibility test and push the placement unless already present
(deduplication by TilePosition value). -/
def fittingTiles {B T P TP : Type} [DecidableEq TP]
    (E : ExtOps B T P TP) (tiles : List T) (b : B) (p : P) : List TP :=
  tiles.foldl (fun acc tile =>
    (List.range (E.directions_len tile + 1)).foldl (fun acc2 si =>
      match E.tile_fits_at_position b tile p si with
      | some tp => insertSet acc2 tp
      | none => acc2) acc) []

/-- One iteration of the placement loop of count_tilings (main.rs 165-179):
mark the board, read the predecessor count (panics when the predecessor is
missing from the counter), accumulate the weighted contribution keyed by the
resulting board, then classify the successor as completed or next. -/
def ctStep {B T P TP : Type} [DecidableEq B] [DecidableEq TP]
    (E : ExtOps B T P TP) (counter : List (B × Nat)) (b : B)
    (acc : List B × List B × List (B × Nat)) (tp : TP) :
    Option (List B × List B × List (B × Nat)) :=
  match alookup counter b with
  | none => none
  | some cc =>
    let marked := E.mark_tile_at_position b tp
    let cu := addCount acc.2.2 marked cc
    if E.is_all_marked marked then some (acc.1, insertSet acc.2.1 marked, cu)
    else some (insertSet acc.1 marked, acc.2.1, cu)

/-- Expansion of one frontier board in count_tilings (main.rs 148-182):
returns (next_boards, completed_boards, count_updates). -/
def ctExpand {B T P TP : Type} [DecidableEq B] [DecidableEq TP]
    (E : ExtOps B T P TP) (tiles : List T) (counter : List (B × Nat)) (b : B) :
    Option (List B × List B × List (B × Nat)) :=
  match E.get_unmarked_position b tiles with
  | none => some ([], [], [])
  | some p => foldOpt (ctStep E counter b) ([], [], []) (fittingTiles E tiles b p)

/-- Merge of one handle into the next frontier state (main.rs 188-204):
extend the stack with next_boards, add the count updates into the rebuilt
counter, and overwrite completed_board with each completed board in turn. -/
def ctMergeHandle {B : Type} [DecidableEq B]
    (acc : List B × List (B × Nat) × Option B)
    (h : List B × List B × List (B × Nat)) :
    List B × List (B × Nat) × Option B :=
  (insertAll acc.1 h.1,
   h.2.2.foldl (fun m kv => addCount m kv.1 kv.2) acc.2.1,
   lastCompleted h.2.1 acc.2.2)

/-- One level of the count_tilings loop: expand every frontier board, then
rebuild stack and counter from scratch and merge all handles (main.rs 144-204). -/
def ctLevel {B T P TP : Type} [DecidableEq B] [DecidableEq TP]
    (E : ExtOps B T P TP) (tiles : List T)
    (stack : List B) (counter : List (B × Nat)) (completed : Option B) :
    Option (List B × List (B × Nat) × Option B) :=
  match mapOpt (ctExpand E tiles counter) stack with
  | none => none
  | some handles => some (handles.foldl ctMergeHandle ([], [], completed))

/-- The while-loop of count_tilings (main.rs 143-205), with fuel. -/
def ctLoop {B T P TP : Type} [DecidableEq B] [DecidableEq TP]
    (E : ExtOps B T P TP) (tiles : List T) :
    Nat → List B → List (B × Nat) → Option B → Res (Option B × List (B × Nat))
  | 0, stack, counter, completed =>
    if stack.isEmpty then Res.ok (completed, counter) else Res.fuelout
  | fuel + 1, stack, counter, completed =>
    if stack.isEmpty then Res.ok (completed, counter)
    else
      match ctLevel E tiles stack counter completed with
      | none => Res.panicked
      | some next => ctLoop E tiles fuel next.1 next.2.1 next.2.2

/-- The final result extraction of count_tilings (main.rs 207-211): 0 when no
complete board was recorded, otherwise the HashMap index counter[completed],
which panics when the completed board is not a key of the final counter. -/
def ctFinish {B : Type} [DecidableEq B] : Res (Option B × List (B × Nat)) → Res Nat
  | Res.ok (none, _) => Res.ok 0
  | Res.ok (some c, counter) =>
    match alookup counter c with
    | some n => Res.ok n
    | none => Res.panicked
  | Res.panicked => Res.panicked
  | Res.fuelout => Res.fuelout

/-- count_tilings (main.rs 129-212): level-synchronous dynamic program over
board states, starting from counter = {board: 1} and stack = {board}. -/
def count_tilings {B T P TP : Type} [DecidableEq B] [DecidableEq TP]
    (E : ExtOps B T P TP) (tiles : List T) (board : B) (fuel : Nat) : Res Nat :=
  ctFinish (ctLoop E tiles fuel [board] [(board, 1)] none)

/-- The placement loop of get_single_tiling (main.rs 95-109): paths are kept
reversed (current board first); a completed extension is appended to the
results list, an incomplete one is pushed on the stack. -/
def gstFold {B T P TP : Type} [DecidableEq TP]
    (E : ExtOps B T P TP) (tiles : List T) (cur : B) (rest : List B) (p : P)
    (stack : List (B × List B)) (completed : List (List B)) :
    List (B × List B) × List (List B) :=
  (fittingTiles E tiles cur p).foldl (fun acc tp =>
    let marked := E.mark_tile_at_position cur tp
    if E.is_all_marked marked then (acc.1, acc.2 ++ [marked :: cur :: rest])
    else ((marked, cur :: rest) :: acc.1, acc.2)) (stack, completed)

/-- The depth-first search loop of get_single_tiling (main.rs 79-117), with
fuel.  The stack top is the list head (Vec push/pop at the end); after the
placements of one board are processed, the loop breaks as soon as at least
1000 completed tilings have been collected. -/
def gstLoop {B T P TP : Type} [DecidableEq TP]
    (E : ExtOps B T P TP) (tiles : List T) :
    Nat → List (B × List B) → List (List B) → Option (List (List B))
  | 0, stack, completed => if stack.isEmpty then some completed else none
  | _ + 1, [], completed => some completed
  | fuel + 1, (cur, rest) :: stack, completed =>
    match E.get_unmarked_position cur tiles with
    | none => gstLoop E tiles fuel stack completed
    | some p =>
      let next := gstFold E tiles cur rest p stack completed
      if 1000 ≤ next.2.length then some next.2
      else gstLoop E tiles fuel next.1 next.2

/-- get_single_tiling (main.rs 73-126).  The random draw gen_range(0, len) is
modelled by a caller-supplied natural r reduced modulo the number of collected
tilings; the selected path is returned in start-to-complete order. -/
def get_single_tiling {B T P TP : Type} [DecidableEq TP]
    (E : ExtOps B T P TP) (tiles : List T) (board : B) (fuel r : Nat) :
    Option (Option (List B)) :=
  match gstLoop E tiles fuel [(board, [])] [] with
  | none => none
  | some [] => some none
  | some (c :: cs) =>
    some (some (((c :: cs).get
      ⟨r % (c :: cs).length, Nat.mod_lt r (Nat.succ_pos cs.length)⟩).reverse))

/-- BoardGraph (main.rs 17-32): a node arena of boards, its running index,
an edge map from node index to the set of successor indices, and the optional
completion node index. -/
structure BoardGraph (B : Type) where
  nodes_arena : List B
  nodes_arena_index : Nat
  edges : List (Nat × List Nat)
  complete_index : Option Nat
deriving DecidableEq

/-- BoardGraph::new (main.rs 35-42). -/
def BoardGraph.new {B : Type} : BoardGraph B :=
  { nodes_arena := [], nodes_arena_index := 0, edges := [], complete_index := none }

/-- BoardGraph::add_node (main.rs 44-49): push the board, bump the index, and
return the index the board was stored at. -/
def BoardGraph.add_node {B : Type} (g : BoardGraph B) (val : B) : BoardGraph B × Nat :=
  ({ g with nodes_arena := g.nodes_arena ++ [val],
            nodes_arena_index := g.nodes_arena_index + 1 },
   g.nodes_arena_index)

/-- Insertion into the edge map: edges.entry(s).or_insert_with(HashSet::new).insert(t). -/
def edgeInsert : List (Nat × List Nat) → Nat → Nat → List (Nat × List Nat)
  | [], s, t => [(s, [t])]
  | (k, ts) :: rest, s, t =>
    if s = k then (k, insertSet ts t) :: rest else (k, ts) :: edgeInsert rest s t

/-- BoardGraph::add_edge (main.rs 51-55): asserts both endpoints are below the
arena index (none on assertion failure), then inserts into the edge set. -/
def BoardGraph.add_edge {B : Type} (g : BoardGraph B) (s t : Nat) : Option (BoardGraph B) :=
  if s < g.nodes_arena_index ∧ t < g.nodes_arena_index then
    some { g with edges := edgeInsert g.edges s t }
  else none

/-- The mutable state of compute_boardgraph (main.rs 215-228): the frontier,
the set of completed boards, the graph, the board-to-index dedup map, and the
(write-only) hashm of predecessor lists. -/
structure CbState (B : Type) where
  stack : List B
  completed : List B
  g : BoardGraph B
  hm : List (B × Nat)
  hashm : List (B × List B)
deriving DecidableEq

/-- The dedup of successors by resulting board value in compute_boardgraph
(main.rs 249-257): next_board is keyed by the marked board, so duplicate
placements that yield the same board collapse to one key (the Vec of
placements stored as the value is discarded by the source at line 260). -/
def cbNexts {B T P TP : Type} [DecidableEq B] [DecidableEq TP]
    (E : ExtOps B T P TP) (tiles : List T) (b : B) (p : P) : List B :=
  (fittingTiles E tiles b p).foldl
    (fun acc tp => insertSet acc (E.mark_tile_at_position b tp)) []

/-- Expansion of one frontier board in compute_boardgraph (main.rs 231-270):
returns (to_stack, to_hash, to_completed), where to_hash pairs each distinct
successor with its predecessor list (here the single predecessor b). -/
def cbExpand {B T P TP : Type} [DecidableEq B] [DecidableEq TP]
    (E : ExtOps B T P TP) (tiles : List T) (b : B) :
    List B × List (B × List B) × List B :=
  match E.get_unmarked_position b tiles with
  | none => ([], [], [])
  | some p =>
    let nexts := cbNexts E tiles b p
    (nexts.filter (fun k => !E.is_all_marked k),
     nexts.map (fun k => (k, [b])),
     nexts.filter (fun k => E.is_all_marked k))

/-- Merge of one to_hash entry (k, v) (main.rs 282-298): allocate an arena
node for k unless the dedup map already has one, look its index up (panic when
missing), add an edge from every predecessor in v (panicking lookups and the
add_edge assert), and extend hashm. -/
def cbMergeEntry {B : Type} [DecidableEq B]
    (st : CbState B) (kv : B × List B) : Option (CbState B) :=
  let step1 : BoardGraph B × List (B × Nat) :=
    match alookup st.hm kv.1 with
    | some _ => (st.g, st.hm)
    | none =>
      let r := st.g.add_node kv.1
      (r.1, st.hm ++ [(kv.1, r.2)])
  match alookup step1.2 kv.1 with
  | none => none
  | some node =>
    match foldOpt (fun g p =>
        match alookup step1.2 p with
        | none => none
        | some pi => BoardGraph.add_edge g pi node) step1.1 kv.2 with
    | none => none
    | some g2 =>
      some { stack := st.stack, completed := st.completed, g := g2,
             hm := step1.2, hashm := entryExtend st.hashm kv.1 kv.2 }

/-- Merge of one handle (main.rs 276-299): extend the stack and the completed
set, then process every to_hash entry. -/
def cbMergeHandle {B : Type} [DecidableEq B]
    (st : CbState B) (h : List B × List (B × List B) × List B) :
    Option (CbState B) :=
  foldOpt cbMergeEntry
    { st with stack := insertAll st.stack h.1,
              completed := insertAll st.completed h.2.2 }
    h.2.1

/-- One level of the compute_boardgraph loop (main.rs 230-300): expand the
whole frontier, reset the stack, and merge every handle in order. -/
def cbLevel {B T P TP : Type} [DecidableEq B] [DecidableEq TP]
    (E : ExtOps B T P TP) (tiles : List T) (st : CbState B) : Option (CbState B) :=
  foldOpt cbMergeHandle { st with stack := [] }
    (st.stack.map (cbExpand E tiles))

/-- The while-loop of compute_boardgraph, with fuel. -/
def cbLoop {B T P TP : Type} [DecidableEq B] [DecidableEq TP]
    (E : ExtOps B T P TP) (tiles : List T) : Nat → CbState B → Res (CbState B)
  | 0, st => if st.stack.isEmpty then Res.ok st else Res.fuelout
  | fuel + 1, st =>
    if st.stack.isEmpty then Res.ok st
    else
      match cbLevel E tiles st with
      | none => Res.panicked
      | some st2 => cbLoop E tiles fuel st2

/-- The final loop of compute_boardgraph (main.rs 302-304): for every
completed board, overwrite complete_index with its arena index (a panicking
HashMap lookup). -/
def cbFinish {B : Type} [DecidableEq B] (st : CbState B) : Option (BoardGraph B) :=
  match foldOpt (fun _ c =>
      match alookup st.hm c with
      | none => none
      | some i => some (some i)) st.g.complete_index st.completed with
  | none => none
  | some ci => some { st.g with complete_index := ci }

/-- compute_boardgraph (main.rs 214-306): the initial board is inserted into
the dedup map and the arena (index 0) before the loop. -/
def compute_boardgraph {B T P TP : Type} [DecidableEq B] [DecidableEq TP]
    (E : ExtOps B T P TP) (tiles : List T) (board : B) (fuel : Nat) :
    Res (BoardGraph B) :=
  let r := BoardGraph.new.add_node board
  let st0 : CbState B :=
    { stack := [board], completed := [], g := r.1, hm := [(board, r.2)], hashm := [] }
  match cbLoop E tiles fuel st0 with
  | Res.ok st =>
    match cbFinish st with
    | some g => Res.ok g
    | none => Res.panicked
  | Res.panicked => Res.panicked
  | Res.fuelout => Res.fuelout

/-- Modelled from the spec: the repository's src contains no graph-recount
function (main.rs only builds and serializes the graph), so the Graph Counter
of spec section 4.4 is modelled from the spec's words: start with
count[root] = 1 at the root node (arena index 0), and on each wave push
count[n] along every outgoing edge of every frontier node n, accumulate the
per-successor sums into the global count map, advance the frontier to the
touched successors, and stop when the frontier is empty. -/
def cfgLoop : Nat → List Nat → List (Nat × Nat) → List (Nat × List Nat) →
    Option (List (Nat × Nat))
  | 0, frontier, count, _ => if frontier.isEmpty then some count else none
  | fuel + 1, frontier, count, edges =>
    if frontier.isEmpty then some count
    else
      let updates := frontier.foldl (fun acc n =>
        ((alookup edges n).getD []).foldl
          (fun acc2 t => addCount acc2 t (alookupD count n)) acc) []
      cfgLoop fuel (updates.map (fun kv => kv.1))
        (updates.foldl (fun m kv => addCount m kv.1 kv.2) count) edges

/-- Modelled from the spec: count_from_graph (spec sections 4.4 and 6) runs
the forward dynamic program over the materialized edges of a built graph and
returns count[completion_node], or 0 when no completion node was recorded. -/
def count_from_graph {B : Type} (g : BoardGraph B) (fuel : Nat) : Option Nat :=
  match cfgLoop fuel [0] [(0, 1)] g.edges with
  | none => none
  | some count =>
    some (match g.complete_index with
      | none => 0
      | some ci => alookupD count ci)

/-- Concrete interface instance with two distinct placements that yield the
same (complete) successor board: board 0 is the start, both placements 0 and 1
mark it into board 1, which is fully marked. -/
def extDup : ExtOps Nat Unit Unit Nat where
  get_unmarked_position b _ := if b = 0 then some () else none
  directions_len _ := 1
  tile_fits_at_position b _ _ si := if b = 0 then some si else none
  mark_tile_at_position b _ := if b = 0 then 1 else b
  is_all_marked b := b == 1

/-- Concrete interface instance of an already fully marked board: board 0 has
no unmarked position and is fully marked. -/
def extC2 : ExtOps Nat Unit Unit Nat where
  get_unmarked_position _ _ := none
  directions_len _ := 0
  tile_fits_at_position _ _ _ _ := none
  mark_tile_at_position b _ := b
  is_all_marked _ := true

/-- Concrete interface instance where completion happens one level before a
dead-end branch runs out: board 0 expands to the complete board 1 and to the
incomplete board 2; board 2 has an unmarked position but no fitting tile. -/
def extC3 : ExtOps Nat Unit Unit Nat where
  get_unmarked_position b _ := if b = 1 then none else some ()
  directions_len _ := 1
  tile_fits_at_position b _ _ si := if b = 0 then some si else none
  mark_tile_at_position b tp := if b = 0 then (if tp = 0 then 1 else 2) else b
  is_all_marked b := b == 1

/-- Concrete interface instance with two distinct complete boards: 0 expands
to 1 and 2; 1 completes into 3; 2 completes into 3 and into 4.  Board 3 ends
with accumulated count 2 and board 4 with count 1, and 3 is encountered
before 4 in the completion iteration. -/
def extC4 : ExtOps Nat Unit Unit Nat where
  get_unmarked_position b _ := if b ≤ 2 then some () else none
  directions_len _ := 1
  tile_fits_at_position b _ _ si :=
    if b = 0 then some si
    else if b = 1 then (if si = 0 then some 0 else none)
    else if b = 2 then some si
    else none
  mark_tile_at_position b tp :=
    if b = 0 then (if tp = 0 then 1 else 2)
    else if b = 1 then 3
    else if b = 2 then (if tp = 0 then 3 else 4)
    else b
  is_all_marked b := b == 3 || b == 4

/-- The graph compute_boardgraph builds from extDup: two nodes, one edge,
completion node 1. -/
def exG1 : BoardGraph Nat :=
  { nodes_arena := [0, 1], nodes_arena_index := 2,
    edges := [(0, [1])], complete_index := some 1 }

lemma alookup_addCount_self {κ : Type} [DecidableEq κ] (m : List (κ × Nat)) (k : κ) (n : Nat) :
    alookup (addCount m k n) k = some ((alookup m k).getD 0 + n) := by
  induction m with
  | nil => simp [addCount, alookup]
  | cons kv rest ih =>
    obtain ⟨a, v⟩ := kv
    by_cases h : k = a
    · subst h
      simp [addCount, alookup]
    · simp [addCount, alookup, h, ih]

lemma alookup_addCount_ne {κ : Type} [DecidableEq κ] (m : List (κ × Nat)) (k s : κ) (n : Nat)
    (h : s ≠ k) : alookup (addCount m k n) s = alookup m s := by
  induction m with
  | nil => simp [addCount, alookup, h]
  | cons kv rest ih =>
    obtain ⟨a, v⟩ := kv
    by_cases hk : k = a
    · subst hk
      simp [addCount, alookup, h]
    · by_cases hs : s = a
      · subst hs
        simp [addCount, alookup, hk]
      · simp [addCount, alookup, hk, hs, ih]

lemma alookupD_addCount {κ : Type} [DecidableEq κ] (m : List (κ × Nat)) (k s : κ) (n : Nat) :
    alookupD (addCount m k n) s = alookupD m s + (if s = k then n else 0) := by
  by_cases h : s = k
  · subst h
    simp [alookupD, alookup_addCount_self]
  · simp [alookupD, alookup_addCount_ne m k s n h, h]

lemma alookup_addCount_isSome {κ : Type} [DecidableEq κ] (m : List (κ × Nat)) (k s : κ)
    (n v : Nat) (h : alookup m s = some v) : ∃ w, alookup (addCount m k n) s = some w := by
  by_cases hs : s = k
  · subst hs
    exact ⟨(alookup m s).getD 0 + n, alookup_addCount_self m s n⟩
  · exact ⟨v, by rw [alookup_addCount_ne m k s n hs]; exact h⟩

lemma alookup_addCount_key {κ : Type} [DecidableEq κ] (m : List (κ × Nat)) (k : κ) (n : Nat) :
    ∃ w, alookup (addCount m k n) k = some w :=
  ⟨(alookup m k).getD 0 + n, alookup_addCount_self m k n⟩

lemma alookup_mem {κ α : Type} [DecidableEq κ] :
    ∀ (m : List (κ × α)) (k : κ) (v : α), alookup m k = some v → (k, v) ∈ m := by
  intro m
  induction m with
  | nil => intro k v h; simp [alookup] at h
  | cons kv rest ih =>
    intro k v h
    obtain ⟨a, w⟩ := kv
    by_cases hk : k = a
    · subst hk
      simp [alookup] at h
      subst h
      exact List.mem_cons_self _ _
    · simp [alookup, hk] at h
      exact List.mem_cons_of_mem _ (ih k v h)

lemma alookup_append_of_some {κ α : Type} [DecidableEq κ] :
    ∀ (m1 m2 : List (κ × α)) (k : κ) (v : α),
      alookup m1 k = some v → alookup (m1 ++ m2) k = some v := by
  intro m1
  induction m1 with
  | nil => intro m2 k v h; simp [alookup] at h
  | cons kv rest ih =>
    intro m2 k v h
    obtain ⟨a, w⟩ := kv
    by_cases hk : k = a
    · subst hk
      simp [alookup] at h ⊢
      exact h
    · simp [alookup, hk] at h ⊢
      exact ih m2 k v h

lemma alookup_append_of_none {κ α : Type} [DecidableEq κ] :
    ∀ (m1 m2 : List (κ × α)) (k : κ),
      alookup m1 k = none → alookup (m1 ++ m2) k = alookup m2 k := by
  intro m1
  induction m1 with
  | nil => intro m2 k _; rfl
  | cons kv rest ih =>
    intro m2 k h
    obtain ⟨a, w⟩ := kv
    by_cases hk : k = a
    · subst hk
      simp [alookup] at h
    · simp [alookup, hk] at h ⊢
      exact ih m2 k h

lemma mem_insertSet {α : Type} [DecidableEq α] {l : List α} {x a : α} :
    a ∈ insertSet l x ↔ a ∈ l ∨ a = x := by
  by_cases h : x ∈ l
  · simp only [insertSet, if_pos h]
    constructor
    · exact fun ha => Or.inl ha
    · rintro (ha | rfl)
      · exact ha
      · exact h
  · simp [insertSet, if_neg h]

lemma nodup_insertSet {α : Type} [DecidableEq α] {l : List α} (x : α) (h : l.Nodup) :
    (insertSet l x).Nodup := by
  by_cases hx : x ∈ l
  · simpa [insertSet, hx] using h
  · simp only [insertSet, if_neg hx]
    rw [List.nodup_append]
    exact ⟨h, List.nodup_singleton x,
      fun a ha hax => hx (by rwa [List.mem_singleton.mp hax] at ha)⟩

lemma mem_insertAll {α : Type} [DecidableEq α] :
    ∀ (l s : List α) (a : α), a ∈ insertAll s l ↔ a ∈ s ∨ a ∈ l := by
  intro l
  induction l with
  | nil => intro s a; simp [insertAll]
  | cons x xs ih =>
    intro s a
    have hrw : insertAll s (x :: xs) = insertAll (insertSet s x) xs := rfl
    rw [hrw, ih, mem_insertSet, List.mem_cons]
    tauto

lemma lastCompleted_cons {α : Type} (a : α) (l : List α) (c : Option α) :
    lastCompleted (a :: l) c = lastCompleted l (some a) := rfl

lemma lastCompleted_append {α : Type} (l1 l2 : List α) (c : Option α) :
    lastCompleted (l1 ++ l2) c = lastCompleted l2 (lastCompleted l1 c) := by
  simp [lastCompleted, List.foldl_append]

lemma lastCompleted_eq_some {α : Type} :
    ∀ (l : List α) (c : Option α) (x : α),
      lastCompleted l c = some x → x ∈ l ∨ c = some x := by
  intro l
  induction l with
  | nil => intro c x h; exact Or.inr h
  | cons a l ih =>
    intro c x h
    rw [lastCompleted_cons] at h
    rcases ih (some a) x h with hm | he
    · exact Or.inl (List.mem_cons_of_mem _ hm)
    · rcases Option.some_inj.mp he with rfl
      exact Or.inl (List.mem_cons_self _ _)

lemma lastCompleted_indep {α : Type} (l : List α) (c1 c2 : Option α) (h : l ≠ []) :
    lastCompleted l c1 = lastCompleted l c2 := by
  cases l with
  | nil => exact absurd rfl h
  | cons a l => rw [lastCompleted_cons, lastCompleted_cons]

lemma lastCompleted_none_ne_nil {α : Type} (l : List α) (x : α)
    (h : lastCompleted l none = some x) : l ≠ [] := by
  intro hl
  subst hl
  simp [lastCompleted] at h

lemma mem_concatAll {α : Type} :
    ∀ (L : List (List α)) (a : α), a ∈ concatAll L ↔ ∃ l ∈ L, a ∈ l := by
  intro L
  induction L with
  | nil => intro a; simp [concatAll]
  | cons l ls ih =>
    intro a
    simp [concatAll, List.mem_append, ih]

lemma foldOpt_inv {γ α : Type} (f : γ → α → Option γ) (Q : γ → Prop)
    (hstep : ∀ acc x acc2, Q acc → f acc x = some acc2 → Q acc2) :
    ∀ (l : List α) (acc out : γ), Q acc → foldOpt f acc l = some out → Q out := by
  intro l
  induction l with
  | nil =>
    intro acc out hq h
    simp [foldOpt] at h
    rwa [← h]
  | cons x xs ih =>
    intro acc out hq h
    unfold foldOpt at h
    cases hf : f acc x with
    | none => rw [hf] at h; cases h
    | some acc2 =>
      rw [hf] at h
      exact ih acc2 out (hstep acc x acc2 hq hf) h

lemma nodup_foldl_insertSet {α β : Type} [DecidableEq β] (f : α → β) :
    ∀ (l : List α) (acc : List β), acc.Nodup →
      (l.foldl (fun a x => insertSet a (f x)) acc).Nodup := by
  intro l
  induction l with
  | nil => intro acc h; exact h
  | cons x xs ih =>
    intro acc h
    rw [List.foldl_cons]
    exact ih (insertSet acc (f x)) (nodup_insertSet (f x) h)

lemma mapOpt_mem {α β : Type} (f : α → Option β) :
    ∀ (l : List α) (ys : List β), mapOpt f l = some ys →
      ∀ y ∈ ys, ∃ x ∈ l, f x = some y := by
  intro l
  induction l with
  | nil =>
    intro ys h y hy
    simp [mapOpt] at h
    subst h
    cases hy
  | cons x xs ih =>
    intro ys h y hy
    unfold mapOpt at h
    cases hfx : f x with
    | none => rw [hfx] at h; cases h
    | some z =>
      cases hxs : mapOpt f xs with
      | none => rw [hfx, hxs] at h; cases h
      | some zs =>
        rw [hfx, hxs] at h
        cases h
        rcases List.mem_cons.mp hy with rfl | hmem
        · exact ⟨x, List.mem_cons_self _ _, hfx⟩
        · rcases ih zs hxs y hmem with ⟨w, hw, hfw⟩
          exact ⟨w, List.mem_cons_of_mem _ hw, hfw⟩

lemma ctStep_eq {B T P TP : Type} [DecidableEq B] [DecidableEq TP]
    (E : ExtOps B T P TP) (counter : List (B × Nat)) (b : B) (cc : Nat)
    (hcc : alookup counter b = some cc)
    (acc : List B × List B × List (B × Nat)) (tp : TP) :
    ∃ acc2, ctStep E counter b acc tp = some acc2 ∧
      acc2.2.2 = addCount acc.2.2 (E.mark_tile_at_position b tp) cc := by
  by_cases hm : E.is_all_marked (E.mark_tile_at_position b tp) = true
  · exact ⟨(acc.1, insertSet acc.2.1 (E.mark_tile_at_position b tp),
        addCount acc.2.2 (E.mark_tile_at_position b tp) cc),
      by simp [ctStep, hcc, hm], rfl⟩
  · exact ⟨(insertSet acc.1 (E.mark_tile_at_position b tp), acc.2.1,
        addCount acc.2.2 (E.mark_tile_at_position b tp) cc),
      by simp [ctStep, hcc, hm], rfl⟩

lemma ctStep_fold {B T P TP : Type} [DecidableEq B] [DecidableEq TP]
    (E : ExtOps B T P TP) (counter : List (B × Nat)) (b : B) (cc : Nat)
    (hcc : alookup counter b = some cc) :
    ∀ (l : List TP) (acc : List B × List B × List (B × Nat)),
      ∃ out, foldOpt (ctStep E counter b) acc l = some out ∧
        ∀ s, alookupD out.2.2 s = alookupD acc.2.2 s +
          cc * l.countP (fun tp => decide (E.mark_tile_at_position b tp = s)) := by
  intro l
  induction l with
  | nil =>
    intro acc
    exact ⟨acc, rfl, fun s => by simp⟩
  | cons tp l ih =>
    intro acc
    rcases ctStep_eq E counter b cc hcc acc tp with ⟨acc2, hstep, hcu⟩
    rcases ih acc2 with ⟨out, hfold, hform⟩
    refine ⟨out, ?_, ?_⟩
    · unfold foldOpt
      rw [hstep]
      exact hfold
    · intro s
      rw [hform s, hcu, alookupD_addCount, List.countP_cons, Nat.mul_add]
      simp only [decide_eq_true_eq]
      by_cases hs : s = E.mark_tile_at_position b tp
      · rw [if_pos hs, if_pos hs.symm, Nat.mul_one]
        ring
      · rw [if_neg hs, if_neg (fun hx => hs hx.symm), Nat.mul_zero]
        ring

lemma ctMergeHandle_foldl_completed {B : Type} [DecidableEq B] :
    ∀ (handles : List (List B × List B × List (B × Nat)))
      (acc : List B × List (B × Nat) × Option B),
      (handles.foldl ctMergeHandle acc).2.2 =
        lastCompleted (concatAll (handles.map (fun h => h.2.1))) acc.2.2 := by
  intro handles
  induction handles with
  | nil => intro acc; rfl
  | cons h hs ih =>
    intro acc
    rw [List.foldl_cons, ih]
    simp only [List.map_cons, concatAll, lastCompleted_append]
    rfl

/-- C1: the spec requires count_tilings(B,T) == count_from_graph(build_graph(B,T))
for all boards and tilesets (spec sections 4.4 and 8).  The code violates it:
count_tilings deduplicates placements by TilePosition value only (main.rs
158-159), so two distinct placements that produce the same successor board both
contribute the predecessor's count, while compute_boardgraph collapses them
into one successor node (main.rs 256) and one set-edge, over which any count
replay sees a single contribution.  On extDup (two distinct placements, same
complete successor) the direct count is 2 and the graph-mediated count is 1. -/
theorem c1_divergence :
    count_tilings extDup [()] 0 1 = Res.ok 2 ∧
    compute_boardgraph extDup [()] 0 2 = Res.ok exG1 ∧
    count_from_graph exG1 3 = some 1 ∧
    decide ((2 : Nat) = 1) = false := by decide

/-- C2 (counterexample): on an already fully marked board (no unmarked
position, is_all_marked true) count_tilings returns 0, not 1: the initial
board is expanded to nothing, no complete successor is ever recorded, and the
no-completion default 0 is returned (main.rs 209-211). -/
theorem c2_counterexample :
    count_tilings extC2 [()] 0 1 = Res.ok 0 ∧
    decide ((Res.ok 0 : Res Nat) = Res.ok 1) = false := by decide

/-- C2 (amended): for every initial board with no unmarked position (in
particular a zero-cell board) and every tileset, count_tilings returns 0, the
no-completion default, with zero tile placements performed: the already
complete initial board produces no successors and is never recorded as a
completed successor. -/
theorem c2_amended {B T P TP : Type} [DecidableEq B] [DecidableEq TP]
    (E : ExtOps B T P TP) (tiles : List T) (board : B) (fuel : Nat)
    (h : E.get_unmarked_position board tiles = none) :
    count_tilings E tiles board (fuel + 1) = Res.ok 0 := by
  have hlvl : ctLevel E tiles [board] [(board, 1)] none = some ([], [], none) := by
    simp [ctLevel, mapOpt, ctExpand, h, ctMergeHandle, insertAll, lastCompleted]
  have hloop : ∀ f, ctLoop E tiles f ([] : List B) [] none = Res.ok (none, []) := by
    intro f
    cases f <;> simp [ctLoop]
  unfold count_tilings
  have hstep : ctLoop E tiles (fuel + 1) [board] [(board, 1)] none =
      ctLoop E tiles fuel [] [] none := by
    simp [ctLoop, hlvl]
  rw [hstep, hloop]
  rfl

/-- C2 (witness): the amended claim applied to the concrete fully marked
zero-successor board extC2. -/
theorem c2_amended_witness : count_tilings extC2 [()] 0 1 = Res.ok 0 :=
  c2_amended extC2 [()] 0 0 rfl

/-- C4 (counterexample): on extC4 two distinct complete boards arise: board 3
(accumulated count 2, encountered first in the completion iteration) and
board 4 (accumulated count 1, encountered last).  count_tilings returns 1,
the count of the last encountered complete board, not 2 as the claim (first
encountered) requires. -/
theorem c4_counterexample :
    count_tilings extC4 [()] 0 2 = Res.ok 1 ∧
    ctLoop extC4 [()] 2 [0] [(0, 1)] none = Res.ok (some 4, [(3, 2), (4, 1)]) ∧
    alookup [(3, 2), (4, 1)] (3 : Nat) = some 2 ∧
    decide ((1 : Nat) = 2) = false := by decide

/-- C4 (amended): the merge loop (main.rs 201-203) overwrites completed_board
with every completed board it sees, so after merging a whole level the
recorded complete state is the LAST completed board in iteration order over
the handles (the previous value only survives when no handle completed),
and the function therefore returns the count of the last-encountered complete
state, not the first. -/
theorem c4_amended {B : Type} [DecidableEq B]
    (handles : List (List B × List B × List (B × Nat)))
    (acc : List B × List (B × Nat) × Option B) :
    (handles.foldl ctMergeHandle acc).2.2 =
      lastCompleted (concatAll (handles.map (fun h => h.2.1))) acc.2.2 :=
  ctMergeHandle_foldl_completed handles acc

/-- C5 (counterexample): on extDup the two distinct placements 0 and 1 both
yield successor board 1, and the counter's expansion contributes the
predecessor count 1 twice: the count update for board 1 is 2, not 1.
count_tilings deduplicates by TilePosition, not by resulting BoardState. -/
theorem c5_counterexample :
    ctExpand extDup [()] [(0, 1)] 0 = some ([], [1], [(1, 2)]) ∧
    decide ((2 : Nat) = 1) = false := by decide

/-- C5 (amended): in count_tilings the per-successor contribution of a
predecessor b with count cc equals cc times the number of DISTINCT
TilePositions (not distinct successor boards) that yield that successor;
the graph builder, by contrast, does deduplicate successors by resulting
board value (its successor list is duplicate-free). -/
theorem c5_amended {B T P TP : Type} [DecidableEq B] [DecidableEq TP]
    (E : ExtOps B T P TP) (tiles : List T) :
    (∀ (b : B) (p : P) (counter : List (B × Nat)) (cc : Nat)
       (nb cb : List B) (cu : List (B × Nat)),
       E.get_unmarked_position b tiles = some p →
       alookup counter b = some cc →
       ctExpand E tiles counter b = some (nb, cb, cu) →
       ∀ s, alookupD cu s = cc * (fittingTiles E tiles b p).countP
         (fun tp => decide (E.mark_tile_at_position b tp = s))) ∧
    (∀ (b : B) (p : P), (cbNexts E tiles b p).Nodup) := by
  constructor
  · intro b p counter cc nb cb cu hp hcc hexp
    intro s
    rcases ctStep_fold E counter b cc hcc (fittingTiles E tiles b p) ([], [], [])
      with ⟨out, hfold, hform⟩
    have hexp2 : foldOpt (ctStep E counter b) ([], [], [])
        (fittingTiles E tiles b p) = some (nb, cb, cu) := by
      rw [← hexp]
      simp [ctExpand, hp]
    rw [hfold] at hexp2
    have hout := Option.some.inj hexp2
    subst hout
    simpa [alookupD, alookup] using hform s
  · intro b p
    exact nodup_foldl_insertSet (E.mark_tile_at_position b) (fittingTiles E tiles b p) [] List.nodup_nil

/-- C5 (witness): the amended claim applied to extDup: the contribution to
successor 1 is 1 * 2 (two distinct placements), and the graph builder's
successor list for the same expansion is duplicate-free. -/
theorem c5_witness :
    alookupD [(1, 2)] (1 : Nat) = 1 * (fittingTiles extDup [()] 0 ()).countP
      (fun tp => decide (extDup.mark_tile_at_position 0 tp = 1)) ∧
    (cbNexts extDup [()] 0 ()).Nodup :=
  ⟨(c5_amended extDup [()]).1 0 () [(0, 1)] 1 [] [1] [(1, 2)] rfl rfl rfl 1,
   (c5_amended extDup [()]).2 0 ()⟩

/-- C7: once the placements of one popped board have been processed, the
sampler checks the number of collected complete tilings (main.rs 113-115)
and exits the search loop as soon as it is at least 1000, for every remaining
fuel value: the cap bounds the search regardless of how much work remains. -/
theorem c7_cap {B T P TP : Type} [DecidableEq TP]
    (E : ExtOps B T P TP) (tiles : List T) (fuel : Nat) (cur : B) (rest : List B)
    (stack : List (B × List B)) (completed : List (List B)) (p : P)
    (hp : E.get_unmarked_position cur tiles = some p)
    (hlen : 1000 ≤ (gstFold E tiles cur rest p stack completed).2.length) :
    gstLoop E tiles (fuel + 1) ((cur, rest) :: stack) completed =
      some (gstFold E tiles cur rest p stack completed).2 := by
  unfold gstLoop
  rw [hp]
  simp only [if_pos hlen]

set_option maxRecDepth 100000 in
/-- C7 (witness): with 999 tilings already collected, processing a board
whose two placements both complete pushes the collection to 1001 and the
loop returns it at once even with no fuel left for another iteration. -/
theorem c7_witness :
    gstLoop extDup [()] 1 [(0, [])] (List.replicate 999 [0]) =
      some (gstFold extDup [()] 0 [] () [] (List.replicate 999 [0])).2 :=
  c7_cap extDup [()] 0 0 [] [] (List.replicate 999 [0]) () rfl (by decide)

/-- C3 (counterexample): on extC3 the complete board 1 is recorded at the
first level, a dead-end incomplete branch (board 2) keeps the frontier
non-empty for one more step, the per-level counter rebuild discards board 1's
count, and the final lookup counter[completed_board] panics. -/
theorem c3_counterexample : count_tilings extC3 [()] 0 2 = Res.panicked := by decide

lemma ctExpand_completed_keys {B T P TP : Type} [DecidableEq B] [DecidableEq TP]
    (E : ExtOps B T P TP) (tiles : List T) (counter : List (B × Nat)) (b : B)
    (out : List B × List B × List (B × Nat))
    (h : ctExpand E tiles counter b = some out) :
    ∀ c ∈ out.2.1, ∃ n, alookup out.2.2 c = some n := by
  unfold ctExpand at h
  cases hget : E.get_unmarked_position b tiles with
  | none =>
    rw [hget] at h
    have hout := Option.some.inj h
    subst hout
    intro c hc
    cases hc
  | some p =>
    rw [hget] at h
    refine foldOpt_inv (ctStep E counter b)
      (fun acc => ∀ c ∈ acc.2.1, ∃ n, alookup acc.2.2 c = some n)
      ?_ (fittingTiles E tiles b p) ([], [], []) out (by intro c hc; cases hc) h
    intro acc tp acc2 hq hstep
    cases hcc : alookup counter b with
    | none => simp [ctStep, hcc] at hstep
    | some cc =>
      by_cases hm : E.is_all_marked (E.mark_tile_at_position b tp) = true
      · simp [ctStep, hcc, hm] at hstep
        subst hstep
        intro c hc
        rcases mem_insertSet.mp hc with hold | rfl
        · rcases hq c hold with ⟨n, hn⟩
          exact alookup_addCount_isSome acc.2.2 (E.mark_tile_at_position b tp) c cc n hn
        · exact alookup_addCount_key acc.2.2 (E.mark_tile_at_position b tp) cc
      · simp [ctStep, hcc, hm] at hstep
        subst hstep
        intro c hc
        rcases hq c hc with ⟨n, hn⟩
        exact alookup_addCount_isSome acc.2.2 (E.mark_tile_at_position b tp) c cc n hn

lemma foldl_addCount_preserve {B : Type} [DecidableEq B] :
    ∀ (kvs : List (B × Nat)) (m : List (B × Nat)) (s : B) (v : Nat),
      alookup m s = some v →
      ∃ w, alookup (kvs.foldl (fun m kv => addCount m kv.1 kv.2) m) s = some w := by
  intro kvs
  induction kvs with
  | nil => intro m s v h; exact ⟨v, h⟩
  | cons kv rest ih =>
    intro m s v h
    rw [List.foldl_cons]
    rcases alookup_addCount_isSome m kv.1 s kv.2 v h with ⟨w, hw⟩
    exact ih (addCount m kv.1 kv.2) s w hw

lemma foldl_addCount_mem {B : Type} [DecidableEq B] :
    ∀ (kvs : List (B × Nat)) (m : List (B × Nat)) (s : B) (v : Nat),
      (s, v) ∈ kvs →
      ∃ w, alookup (kvs.foldl (fun m kv => addCount m kv.1 kv.2) m) s = some w := by
  intro kvs
  induction kvs with
  | nil => intro m s v h; cases h
  | cons kv rest ih =>
    intro m s v h
    rw [List.foldl_cons]
    rcases List.mem_cons.mp h with rfl | hmem
    · rcases alookup_addCount_key m s v with ⟨w, hw⟩
      exact foldl_addCount_preserve rest (addCount m s v) s w hw
    · exact ih (addCount m kv.1 kv.2) s v hmem

lemma ctMerge_counter_preserve {B : Type} [DecidableEq B] :
    ∀ (handles : List (List B × List B × List (B × Nat)))
      (acc : List B × List (B × Nat) × Option B) (c : B) (v : Nat),
      alookup acc.2.1 c = some v →
      ∃ w, alookup (handles.foldl ctMergeHandle acc).2.1 c = some w := by
  intro handles
  induction handles with
  | nil => intro acc c v h; exact ⟨v, h⟩
  | cons h hs ih =>
    intro acc c v hv
    rw [List.foldl_cons]
    rcases foldl_addCount_preserve h.2.2 acc.2.1 c v hv with ⟨w, hw⟩
    exact ih (ctMergeHandle acc h) c w hw

lemma ctMerge_counter_key {B : Type} [DecidableEq B] :
    ∀ (handles : List (List B × List B × List (B × Nat)))
      (acc : List B × List (B × Nat) × Option B)
      (h0 : List B × List B × List (B × Nat)) (c : B) (n : Nat),
      h0 ∈ handles → alookup h0.2.2 c = some n →
      ∃ w, alookup (handles.foldl ctMergeHandle acc).2.1 c = some w := by
  intro handles
  induction handles with
  | nil => intro acc h0 c n hmem _; cases hmem
  | cons h hs ih =>
    intro acc h0 c n hmem hn
    rw [List.foldl_cons]
    rcases List.mem_cons.mp hmem with rfl | hmem2
    · have hin := alookup_mem h0.2.2 c n hn
      rcases foldl_addCount_mem h0.2.2 acc.2.1 c n hin with ⟨w, hw⟩
      exact ctMerge_counter_preserve hs (ctMergeHandle acc h0) c w hw
    · exact ih (ctMergeHandle acc h) h0 c n hmem2 hn

/-- C3 (amended): count_tilings terminates when the frontier empties and
returns 0 when no complete state was ever produced; when the level that
empties the frontier itself records a complete state, that state's count is a
key of the final (per-level, freshly rebuilt) counter map, the final lookup
succeeds, and its accumulated count is returned.  The lookup is NOT safe in
general: when dead-end branches keep the frontier non-empty for further steps
after the completion level, the counter rebuild discards the completed
state's count and the final lookup fails loudly (see the counterexample). -/
theorem c3_amended {B T P TP : Type} [DecidableEq B] [DecidableEq TP]
    (E : ExtOps B T P TP) (tiles : List T) (fuel : Nat) (b0 : B) (srest : List B)
    (counter : List (B × Nat)) (completed : Option B)
    (handles : List (List B × List B × List (B × Nat))) (c : B)
    (hh : mapOpt (ctExpand E tiles counter) (b0 :: srest) = some handles)
    (hc : lastCompleted (concatAll (handles.map (fun h => h.2.1))) none = some c)
    (hdone : (handles.foldl ctMergeHandle ([], [], completed)).1 = []) :
    ∃ n, alookup (handles.foldl ctMergeHandle ([], [], completed)).2.1 c = some n ∧
      ctFinish (ctLoop E tiles (fuel + 1) (b0 :: srest) counter completed) =
        Res.ok n := by
  have hkey : ∃ n, alookup (handles.foldl ctMergeHandle ([], [], completed)).2.1 c
      = some n := by
    rcases lastCompleted_eq_some _ none c hc with hmem | habs
    · rcases (mem_concatAll _ c).mp hmem with ⟨l, hl, hcl⟩
      rcases List.mem_map.mp hl with ⟨h0, hh0, rfl⟩
      rcases mapOpt_mem (ctExpand E tiles counter) (b0 :: srest) handles hh h0 hh0
        with ⟨b, _, hexp⟩
      rcases ctExpand_completed_keys E tiles counter b h0 hexp c hcl with ⟨n, hn⟩
      exact ctMerge_counter_key handles ([], [], completed) h0 c n hh0 hn
    · cases habs
  rcases hkey with ⟨n, hn⟩
  refine ⟨n, hn, ?_⟩
  have hcomp : (handles.foldl ctMergeHandle ([], [], completed)).2.2 = some c := by
    rw [ctMergeHandle_foldl_completed]
    rw [lastCompleted_indep _ _ none
      (lastCompleted_none_ne_nil _ c hc)]
    exact hc
  have hlvl : ctLevel E tiles (b0 :: srest) counter completed =
      some (handles.foldl ctMergeHandle ([], [], completed)) := by
    simp [ctLevel, hh]
  have hstep : ctLoop E tiles (fuel + 1) (b0 :: srest) counter completed =
      ctLoop E tiles fuel (handles.foldl ctMergeHandle ([], [], completed)).1
        (handles.foldl ctMergeHandle ([], [], completed)).2.1
        (handles.foldl ctMergeHandle ([], [], completed)).2.2 := by
    simp [ctLoop, hlvl]
  rw [hstep, hdone, hcomp]
  have hloop : ∀ f cnt, ctLoop E tiles f ([] : List B) cnt (some c) =
      Res.ok (some c, cnt) := by
    intro f cnt
    cases f <;> simp [ctLoop]
  rw [hloop]
  simp [ctFinish, hn]

/-- C3 (witness): the amended claim applied to extDup, whose single level
both empties the frontier and records the complete board 1; the returned
count is its recorded count 2. -/
theorem c3_witness :
    ∃ n, alookup (([([], [1], [(1, 2)])].foldl ctMergeHandle
        ([], [], (none : Option Nat))).2.1) 1 = some n ∧
      ctFinish (ctLoop extDup [()] 1 [0] [(0, 1)] none) = Res.ok n :=
  c3_amended extDup [()] 0 0 [] [(0, 1)] none [([], [1], [(1, 2)])] 1 rfl rfl rfl

/-- One tile application: y is obtained from x by applying exactly one
placement. -/
def StepRel {B T P TP : Type} (E : ExtOps B T P TP) (x y : B) : Prop :=
  ∃ tp, E.mark_tile_at_position x tp = y

/-- A well-formed sampler result: the path starts at the supplied initial
board, every state after the first is one tile application away from its
predecessor, and the final state is fully marked. -/
def ValidPath {B T P TP : Type} (E : ExtOps B T P TP) (board : B) (path : List B) : Prop :=
  path.head? = some board ∧ List.Chain' (StepRel E) path ∧
  ∃ last, path.getLast? = some last ∧ E.is_all_marked last = true

/-- Invariant of a reversed partial path (current board first): it ends at
the initial board and each consecutive pair is one tile application apart. -/
def RevOk {B T P TP : Type} (E : ExtOps B T P TP) (board : B) (l : List B) : Prop :=
  l.getLast? = some board ∧ List.Chain' (fun y x => StepRel E x y) l

/-- Invariant of a reversed completed path: additionally its current (first)
board is fully marked. -/
def CompOk {B T P TP : Type} (E : ExtOps B T P TP) (board : B) (l : List B) : Prop :=
  RevOk E board l ∧ ∃ h0, l.head? = some h0 ∧ E.is_all_marked h0 = true

lemma RevOk_extend {B T P TP : Type} (E : ExtOps B T P TP) (board cur : B)
    (rest : List B) (tp : TP) (h : RevOk E board (cur :: rest)) :
    RevOk E board (E.mark_tile_at_position cur tp :: cur :: rest) := by
  obtain ⟨hlast, hchain⟩ := h
  refine ⟨?_, ?_⟩
  · rw [List.getLast?_cons_cons]
    exact hlast
  · rw [List.chain'_cons]
    exact ⟨⟨tp, rfl⟩, hchain⟩

lemma gstFold_aux {B T P TP : Type} [DecidableEq TP]
    (E : ExtOps B T P TP) (board cur : B) (rest : List B)
    (hcur : RevOk E board (cur :: rest)) :
    ∀ (l : List TP) (acc : List (B × List B) × List (List B)),
      (∀ pr ∈ acc.1, RevOk E board (pr.1 :: pr.2)) →
      (∀ q ∈ acc.2, CompOk E board q) →
      (∀ pr ∈ (l.foldl (fun acc tp =>
          let marked := E.mark_tile_at_position cur tp
          if E.is_all_marked marked then (acc.1, acc.2 ++ [marked :: cur :: rest])
          else ((marked, cur :: rest) :: acc.1, acc.2)) acc).1,
        RevOk E board (pr.1 :: pr.2)) ∧
      (∀ q ∈ (l.foldl (fun acc tp =>
          let marked := E.mark_tile_at_position cur tp
          if E.is_all_marked marked then (acc.1, acc.2 ++ [marked :: cur :: rest])
          else ((marked, cur :: rest) :: acc.1, acc.2)) acc).2,
        CompOk E board q) := by
  intro l
  induction l with
  | nil =>
    intro acc h1 h2
    exact ⟨h1, h2⟩
  | cons tp l ih =>
    intro acc h1 h2
    rw [List.foldl_cons]
    by_cases hm : E.is_all_marked (E.mark_tile_at_position cur tp) = true
    · simp only [hm, if_true]
      refine ih _ h1 ?_
      intro q hq
      rcases List.mem_append.mp hq with hold | hnew
      · exact h2 q hold
      · rcases List.mem_singleton.mp hnew with rfl
        exact ⟨RevOk_extend E board cur rest tp hcur,
          E.mark_tile_at_position cur tp, rfl, hm⟩
    · simp only [hm, if_false]
      refine ih _ ?_ h2
      intro pr hpr
      rcases List.mem_cons.mp hpr with rfl | hold
      · exact RevOk_extend E board cur rest tp hcur
      · exact h1 pr hold

lemma gstLoop_inv {B T P TP : Type} [DecidableEq TP]
    (E : ExtOps B T P TP) (tiles : List T) (board : B) :
    ∀ (fuel : Nat) (stack : List (B × List B)) (completed out : List (List B)),
      (∀ pr ∈ stack, RevOk E board (pr.1 :: pr.2)) →
      (∀ q ∈ completed, CompOk E board q) →
      gstLoop E tiles fuel stack completed = some out →
      ∀ q ∈ out, CompOk E board q := by
  intro fuel
  induction fuel with
  | zero =>
    intro stack completed out h1 h2 hloop
    cases stack with
    | nil =>
      simp [gstLoop] at hloop
      subst hloop
      exact h2
    | cons pr stack =>
      simp [gstLoop] at hloop
  | succ fuel ih =>
    intro stack completed out h1 h2 hloop
    cases stack with
    | nil =>
      simp [gstLoop] at hloop
      subst hloop
      exact h2
    | cons pr stack =>
      obtain ⟨cur, rest⟩ := pr
      have hcur : RevOk E board (cur :: rest) := h1 (cur, rest) (List.mem_cons_self _ _)
      have h1t : ∀ q ∈ stack, RevOk E board (q.1 :: q.2) :=
        fun q hq => h1 q (List.mem_cons_of_mem _ hq)
      cases hget : E.get_unmarked_position cur tiles with
      | none =>
        rw [gstLoop, hget] at hloop
        exact ih stack completed out h1t h2 hloop
      | some p =>
        simp only [gstLoop, hget] at hloop
        have hfold2 : (∀ pr ∈ (gstFold E tiles cur rest p stack completed).1,
            RevOk E board (pr.1 :: pr.2)) ∧
            (∀ q ∈ (gstFold E tiles cur rest p stack completed).2,
              CompOk E board q) :=
          gstFold_aux E board cur rest hcur
            (fittingTiles E tiles cur p) (stack, completed) h1t h2
        by_cases hlen : 1000 ≤ (gstFold E tiles cur rest p stack completed).2.length
        · rw [if_pos hlen] at hloop
          have hout := Option.some.inj hloop
          subst hout
          exact hfold2.2
        · rw [if_neg hlen] at hloop
          exact ih _ _ out hfold2.1 hfold2.2 hloop

lemma CompOk_reverse {B T P TP : Type} (E : ExtOps B T P TP) (board : B)
    (l : List B) (h : CompOk E board l) : ValidPath E board l.reverse := by
  obtain ⟨⟨hlast, hchain⟩, h0, hhead, hmark⟩ := h
  refine ⟨?_, ?_, ⟨h0, ?_, hmark⟩⟩
  · rw [List.head?_reverse]
    exact hlast
  · rw [List.chain'_reverse]
    exact hchain
  · rw [List.getLast?_reverse]
    exact hhead

/-- C6: whenever the sampler returns Some(path), the path starts at the
supplied initial board, every subsequent state is obtained from its
predecessor by exactly one tile application, and the final state is fully
marked; and the sampler returns None exactly when the search collected zero
complete paths. -/
theorem c6_sampler {B T P TP : Type} [DecidableEq TP]
    (E : ExtOps B T P TP) (tiles : List T) (board : B) (fuel r : Nat) :
    (∀ path, get_single_tiling E tiles board fuel r = some (some path) →
      ValidPath E board path) ∧
    (get_single_tiling E tiles board fuel r = some none ↔
      gstLoop E tiles fuel [(board, [])] [] = some []) := by
  constructor
  · intro path hres
    unfold get_single_tiling at hres
    cases hloop : gstLoop E tiles fuel [(board, [])] [] with
    | none => rw [hloop] at hres; cases hres
    | some completed =>
      rw [hloop] at hres
      cases completed with
      | nil => simp at hres
      | cons c cs =>
        have hstack0 : ∀ pr ∈ ([(board, ([] : List B))] : List (B × List B)),
            RevOk E board (pr.1 :: pr.2) := by
          intro pr hpr
          rcases List.mem_singleton.mp hpr with rfl
          exact ⟨by simp, List.chain'_singleton board⟩
        have hcomp0 : ∀ q ∈ ([] : List (List B)), CompOk E board q := by
          intro q hq
          cases hq
        have hall := gstLoop_inv E tiles board fuel [(board, [])] [] (c :: cs)
          hstack0 hcomp0 hloop
        have hpath : ((c :: cs).get
            ⟨r % (c :: cs).length, Nat.mod_lt r (Nat.succ_pos cs.length)⟩).reverse
            = path := by
          simpa using hres
        have hmem := List.get_mem (c :: cs) (r % (c :: cs).length)
          (Nat.mod_lt r (Nat.succ_pos cs.length))
        have hq := hall _ hmem
        rw [← hpath]
        exact CompOk_reverse E board _ hq
  · cases hloop : gstLoop E tiles fuel [(board, [])] [] with
    | none => unfold get_single_tiling; rw [hloop]; simp
    | some completed =>
      unfold get_single_tiling
      rw [hloop]
      cases completed with
      | nil => simp
      | cons c cs => simp

/-- C6 (witness): on extDup the sampler returns the path [0, 1], which starts
at board 0, moves by one placement, and ends fully marked. -/
theorem c6_witness : ValidPath extDup 0 [0, 1] :=
  (c6_sampler extDup [()] 0 2 0).1 [0, 1] rfl

lemma alookup_withIdx {B : Type} [DecidableEq B] :
    ∀ (l : List B) (n : Nat) (b : B) (i : Nat),
      alookup (withIdx l n) b = some i →
      ∃ j, i = n + j ∧ l.get? j = some b ∧ j < l.length := by
  intro l
  induction l with
  | nil => intro n b i h; simp [withIdx, alookup] at h
  | cons x xs ih =>
    intro n b i h
    by_cases hb : b = x
    · subst hb
      simp [withIdx, alookup] at h
      exact ⟨0, by omega, by simp, by simp⟩
    · simp [withIdx, alookup, hb] at h
      rcases ih (n + 1) b i h with ⟨j, hj, hget, hlt⟩
      exact ⟨j + 1, by omega, by simpa using hget, by simpa using Nat.succ_lt_succ hlt⟩

lemma alookup_withIdx_none {B : Type} [DecidableEq B] :
    ∀ (l : List B) (n : Nat) (b : B),
      alookup (withIdx l n) b = none ↔ b ∉ l := by
  intro l
  induction l with
  | nil => intro n b; simp [withIdx, alookup]
  | cons x xs ih =>
    intro n b
    by_cases hb : b = x
    · subst hb
      simp [withIdx, alookup]
    · simp [withIdx, alookup, hb, ih (n + 1) b]

lemma withIdx_append {B : Type} :
    ∀ (l : List B) (x : B) (n : Nat),
      withIdx (l ++ [x]) n = withIdx l n ++ [(x, n + l.length)] := by
  intro l
  induction l with
  | nil => intro x n; simp [withIdx]
  | cons y ys ih =>
    intro x n
    have harith : n + 1 + ys.length = n + (ys.length + 1) := by omega
    show (y, n) :: withIdx (ys ++ [x]) (n + 1) =
      ((y, n) :: withIdx ys (n + 1)) ++ [(x, n + (ys.length + 1))]
    rw [ih, harith]
    rfl

lemma head?_append_left {α : Type} (l l2 : List α) (a : α) (h : l.head? = some a) :
    (l ++ l2).head? = some a := by
  cases l with
  | nil => cases h
  | cons x xs => simpa using h

lemma add_edge_parts {B : Type} (g g2 : BoardGraph B) (s t : Nat)
    (h : BoardGraph.add_edge g s t = some g2) :
    g2.nodes_arena = g.nodes_arena ∧ g2.nodes_arena_index = g.nodes_arena_index ∧
      g2.complete_index = g.complete_index := by
  unfold BoardGraph.add_edge at h
  by_cases hc : s < g.nodes_arena_index ∧ t < g.nodes_arena_index
  · rw [if_pos hc] at h
    have h2 := Option.some.inj h
    subst h2
    exact ⟨rfl, rfl, rfl⟩
  · rw [if_neg hc] at h
    cases h

lemma edge_fold_ok {B : Type} [DecidableEq B] (hm2 : List (B × Nat)) (node : Nat) :
    ∀ (v : List B) (g : BoardGraph B),
      g.nodes_arena_index = g.nodes_arena.length →
      node < g.nodes_arena.length →
      (∀ p ∈ v, ∃ i, alookup hm2 p = some i ∧ i < g.nodes_arena.length) →
      ∃ g2, foldOpt (fun g p =>
          match alookup hm2 p with
          | none => none
          | some pi => BoardGraph.add_edge g pi node) g v = some g2 ∧
        g2.nodes_arena = g.nodes_arena ∧
        g2.nodes_arena_index = g.nodes_arena_index ∧
        g2.complete_index = g.complete_index := by
  intro v
  induction v with
  | nil =>
    intro g h1 h2 h3
    exact ⟨g, rfl, rfl, rfl, rfl⟩
  | cons p v ih =>
    intro g h1 h2 h3
    rcases h3 p (List.mem_cons_self _ _) with ⟨i, hi, hilt⟩
    have hedge : BoardGraph.add_edge g i node =
        some { g with edges := edgeInsert g.edges i node } := by
      unfold BoardGraph.add_edge
      rw [if_pos ⟨by rw [h1]; exact hilt, by rw [h1]; exact h2⟩]
    have hrec := ih { g with edges := edgeInsert g.edges i node } h1 h2
      (fun q hq => h3 q (List.mem_cons_of_mem _ hq))
    rcases hrec with ⟨g2, hg2, ha, hb, hc⟩
    refine ⟨g2, ?_, ha, hb, hc⟩
    unfold foldOpt
    simp only [hi, hedge]
    exact hg2

/-- The loop invariant of compute_boardgraph: the dedup map mirrors the arena
with its indices, the running index equals the arena length, the arena is
duplicate-free and starts with the initial board, the completion index is not
yet set, every frontier board has an arena slot, and every completed board is
fully marked and has an arena slot. -/
def CbInv {B T P TP : Type} [DecidableEq B] (E : ExtOps B T P TP) (board : B)
    (st : CbState B) : Prop :=
  st.hm = withIdx st.g.nodes_arena 0 ∧
  st.g.nodes_arena_index = st.g.nodes_arena.length ∧
  st.g.nodes_arena.Nodup ∧
  st.g.nodes_arena.head? = some board ∧
  st.g.complete_index = none ∧
  (∀ b ∈ st.stack, ∃ i, alookup st.hm b = some i) ∧
  (∀ c ∈ st.completed, E.is_all_marked c = true ∧ ∃ i, alookup st.hm c = some i)

lemma cbMergeEntry_ok {B : Type} [DecidableEq B] (st : CbState B) (kv : B × List B)
    (h1 : st.hm = withIdx st.g.nodes_arena 0)
    (h2 : st.g.nodes_arena_index = st.g.nodes_arena.length)
    (h3 : st.g.nodes_arena.Nodup)
    (hv : ∀ p ∈ kv.2, ∃ i, alookup st.hm p = some i) :
    ∃ st2, cbMergeEntry st kv = some st2 ∧
      st2.hm = withIdx st2.g.nodes_arena 0 ∧
      st2.g.nodes_arena_index = st2.g.nodes_arena.length ∧
      st2.g.nodes_arena.Nodup ∧
      st2.stack = st.stack ∧
      st2.completed = st.completed ∧
      st2.g.complete_index = st.g.complete_index ∧
      (∀ a, st.g.nodes_arena.head? = some a → st2.g.nodes_arena.head? = some a) ∧
      (∀ b i, alookup st.hm b = some i → alookup st2.hm b = some i) ∧
      (∃ i, alookup st2.hm kv.1 = some i) := by
  have hboundOf : ∀ (b : B) (i : Nat), alookup st.hm b = some i →
      i < st.g.nodes_arena.length := by
    intro b i hbi
    rw [h1] at hbi
    rcases alookup_withIdx st.g.nodes_arena 0 b i hbi with ⟨j, hj, _, hlt⟩
    omega
  cases hk : alookup st.hm kv.1 with
  | some i =>
    have hilt : i < st.g.nodes_arena.length := hboundOf kv.1 i hk
    have hv2 : ∀ p ∈ kv.2, ∃ ip, alookup st.hm p = some ip ∧
        ip < st.g.nodes_arena.length := by
      intro p hp
      rcases hv p hp with ⟨ip, hip⟩
      exact ⟨ip, hip, hboundOf p ip hip⟩
    rcases edge_fold_ok st.hm i kv.2 st.g h2 hilt hv2 with ⟨g2, hfold, ha, hb, hc⟩
    refine ⟨⟨st.stack, st.completed, g2, st.hm, entryExtend st.hashm kv.1 kv.2⟩,
      ?_, ?_, ?_, ?_, rfl, rfl, hc, ?_, ?_, ?_⟩
    · simp only [cbMergeEntry, hk, hfold]
    · show st.hm = withIdx g2.nodes_arena 0
      rw [ha]
      exact h1
    · show g2.nodes_arena_index = g2.nodes_arena.length
      rw [ha, hb]
      exact h2
    · show g2.nodes_arena.Nodup
      rw [ha]
      exact h3
    · intro a hhead
      show g2.nodes_arena.head? = some a
      rw [ha]
      exact hhead
    · intro b j hbj
      exact hbj
    · exact ⟨i, hk⟩
  | none =>
    have hnotmem : kv.1 ∉ st.g.nodes_arena := by
      rw [h1] at hk
      exact (alookup_withIdx_none st.g.nodes_arena 0 kv.1).mp hk
    have hnode : alookup (st.hm ++ [(kv.1, st.g.nodes_arena_index)]) kv.1 =
        some st.g.nodes_arena_index := by
      rw [alookup_append_of_none st.hm _ kv.1 hk]
      simp [alookup]
    have harena1 : (st.g.nodes_arena ++ [kv.1]).length =
        st.g.nodes_arena.length + 1 := by simp
    have hv2 : ∀ p ∈ kv.2, ∃ ip,
        alookup (st.hm ++ [(kv.1, st.g.nodes_arena_index)]) p = some ip ∧
        ip < (st.g.nodes_arena ++ [kv.1]).length := by
      intro p hp
      rcases hv p hp with ⟨ip, hip⟩
      refine ⟨ip, alookup_append_of_some st.hm _ p ip hip, ?_⟩
      rw [harena1]
      exact Nat.lt_succ_of_lt (hboundOf p ip hip)
    have hg1idx : (⟨st.g.nodes_arena ++ [kv.1], st.g.nodes_arena_index + 1,
        st.g.edges, st.g.complete_index⟩ : BoardGraph B).nodes_arena_index =
        (⟨st.g.nodes_arena ++ [kv.1], st.g.nodes_arena_index + 1,
        st.g.edges, st.g.complete_index⟩ : BoardGraph B).nodes_arena.length := by
      show st.g.nodes_arena_index + 1 = (st.g.nodes_arena ++ [kv.1]).length
      rw [harena1, h2]
    have hnodelt : st.g.nodes_arena_index <
        (⟨st.g.nodes_arena ++ [kv.1], st.g.nodes_arena_index + 1,
        st.g.edges, st.g.complete_index⟩ : BoardGraph B).nodes_arena.length := by
      show st.g.nodes_arena_index < (st.g.nodes_arena ++ [kv.1]).length
      rw [harena1, h2]
      omega
    rcases edge_fold_ok (st.hm ++ [(kv.1, st.g.nodes_arena_index)])
      st.g.nodes_arena_index kv.2
      ⟨st.g.nodes_arena ++ [kv.1], st.g.nodes_arena_index + 1,
        st.g.edges, st.g.complete_index⟩
      hg1idx hnodelt hv2 with ⟨g2, hfold, ha, hb, hc⟩
    refine ⟨⟨st.stack, st.completed, g2, st.hm ++ [(kv.1, st.g.nodes_arena_index)],
      entryExtend st.hashm kv.1 kv.2⟩, ?_, ?_, ?_, ?_, rfl, rfl, ?_, ?_, ?_, ?_⟩
    · simp only [cbMergeEntry, hk, BoardGraph.add_node, hnode, hfold]
    · show st.hm ++ [(kv.1, st.g.nodes_arena_index)] = withIdx g2.nodes_arena 0
      rw [ha]
      show st.hm ++ [(kv.1, st.g.nodes_arena_index)] =
        withIdx (st.g.nodes_arena ++ [kv.1]) 0
      rw [withIdx_append, h1, h2, Nat.zero_add]
    · show g2.nodes_arena_index = g2.nodes_arena.length
      rw [ha, hb]
      exact hg1idx
    · show g2.nodes_arena.Nodup
      rw [ha]
      show (st.g.nodes_arena ++ [kv.1]).Nodup
      rw [List.nodup_append]
      exact ⟨h3, List.nodup_singleton kv.1,
        fun a hax hay => hnotmem (by rwa [List.mem_singleton.mp hay] at hax)⟩
    · show g2.complete_index = st.g.complete_index
      rw [hc]
    · intro a hhead
      show g2.nodes_arena.head? = some a
      rw [ha]
      exact head?_append_left st.g.nodes_arena [kv.1] a hhead
    · intro b j hbj
      exact alookup_append_of_some st.hm _ b j hbj
    · exact ⟨st.g.nodes_arena_index, hnode⟩

lemma cbEntries_ok {B : Type} [DecidableEq B] :
    ∀ (entries : List (B × List B)) (st : CbState B),
      st.hm = withIdx st.g.nodes_arena 0 →
      st.g.nodes_arena_index = st.g.nodes_arena.length →
      st.g.nodes_arena.Nodup →
      (∀ kv ∈ entries, ∀ p ∈ kv.2, ∃ i, alookup st.hm p = some i) →
      ∃ st2, foldOpt cbMergeEntry st entries = some st2 ∧
        st2.hm = withIdx st2.g.nodes_arena 0 ∧
        st2.g.nodes_arena_index = st2.g.nodes_arena.length ∧
        st2.g.nodes_arena.Nodup ∧
        st2.stack = st.stack ∧
        st2.completed = st.completed ∧
        st2.g.complete_index = st.g.complete_index ∧
        (∀ a, st.g.nodes_arena.head? = some a → st2.g.nodes_arena.head? = some a) ∧
        (∀ b i, alookup st.hm b = some i → alookup st2.hm b = some i) ∧
        (∀ kv ∈ entries, ∃ i, alookup st2.hm kv.1 = some i) := by
  intro entries
  induction entries with
  | nil =>
    intro st h1 h2 h3 _
    exact ⟨st, rfl, h1, h2, h3, rfl, rfl, rfl, fun a ha => ha,
      fun b i hbi => hbi, fun kv hkv => absurd hkv (List.not_mem_nil kv)⟩
  | cons kv entries ih =>
    intro st h1 h2 h3 hv
    rcases cbMergeEntry_ok st kv h1 h2 h3
      (hv kv (List.mem_cons_self _ _)) with
      ⟨st1, hst1, g1, g2, g3, gs, gc, gi, gh, gmono, gkey⟩
    have hv1 : ∀ kv2 ∈ entries, ∀ p ∈ kv2.2, ∃ i, alookup st1.hm p = some i := by
      intro kv2 hkv2 p hp
      rcases hv kv2 (List.mem_cons_of_mem _ hkv2) p hp with ⟨i, hi⟩
      exact ⟨i, gmono p i hi⟩
    rcases ih st1 g1 g2 g3 hv1 with
      ⟨st2, hst2, f1, f2, f3, fs, fc, fi, fh, fmono, fkey⟩
    refine ⟨st2, ?_, f1, f2, f3, by rw [fs, gs], by rw [fc, gc], by rw [fi, gi],
      ?_, ?_, ?_⟩
    · unfold foldOpt
      simp only [hst1]
      exact hst2
    · intro a ha
      exact fh a (gh a ha)
    · intro b i hbi
      exact fmono b i (gmono b i hbi)
    · intro kv2 hkv2
      rcases List.mem_cons.mp hkv2 with rfl | hmem
      · rcases gkey with ⟨i, hi⟩
        exact ⟨i, fmono kv2.1 i hi⟩
      · exact fkey kv2 hmem

lemma cbMergeHandle_ok {B T P TP : Type} [DecidableEq B] [DecidableEq TP]
    (E : ExtOps B T P TP) (tiles : List T) (board : B) (st : CbState B) (b0 : B)
    (hInv : CbInv E board st)
    (hb0 : ∃ i, alookup st.hm b0 = some i) :
    ∃ st2, cbMergeHandle st (cbExpand E tiles b0) = some st2 ∧ CbInv E board st2 ∧
      (∀ b i, alookup st.hm b = some i → alookup st2.hm b = some i) := by
  obtain ⟨h1, h2, h3, h4, h5, h6, h7⟩ := hInv
  cases hget : E.get_unmarked_position b0 tiles with
  | none =>
    have hexp : cbExpand E tiles b0 = ([], [], []) := by
      simp [cbExpand, hget]
    rw [hexp]
    exact ⟨st, rfl, ⟨h1, h2, h3, h4, h5, h6, h7⟩, fun b i hbi => hbi⟩
  | some p =>
    have hexp : cbExpand E tiles b0 =
        ((cbNexts E tiles b0 p).filter (fun k => !E.is_all_marked k),
         (cbNexts E tiles b0 p).map (fun k => (k, [b0])),
         (cbNexts E tiles b0 p).filter (fun k => E.is_all_marked k)) := by
      simp [cbExpand, hget]
    rw [hexp]
    have hventries : ∀ kv ∈ (cbNexts E tiles b0 p).map (fun k => (k, [b0])),
        ∀ q ∈ kv.2, ∃ i, alookup st.hm q = some i := by
      intro kv hkv q hq
      rcases List.mem_map.mp hkv with ⟨k, _, rfl⟩
      rcases List.mem_singleton.mp hq with rfl
      exact hb0
    rcases cbEntries_ok ((cbNexts E tiles b0 p).map (fun k => (k, [b0])))
      ⟨insertAll st.stack ((cbNexts E tiles b0 p).filter (fun k => !E.is_all_marked k)),
       insertAll st.completed ((cbNexts E tiles b0 p).filter (fun k => E.is_all_marked k)),
       st.g, st.hm, st.hashm⟩ h1 h2 h3 hventries with
      ⟨st2, hst2, f1, f2, f3, fs, fc, fi, fh, fmono, fkey⟩
    refine ⟨st2, hst2, ⟨f1, f2, f3, fh board h4, by rw [fi]; exact h5, ?_, ?_⟩, ?_⟩
    · intro b hb
      rw [fs] at hb
      rcases (mem_insertAll _ _ b).mp hb with hold | hnew
      · rcases h6 b hold with ⟨i, hi⟩
        exact ⟨i, fmono b i hi⟩
      · have hbn : b ∈ cbNexts E tiles b0 p := (List.mem_filter.mp hnew).1
        exact fkey (b, [b0]) (List.mem_map.mpr ⟨b, hbn, rfl⟩)
    · intro c hc
      rw [fc] at hc
      rcases (mem_insertAll _ _ c).mp hc with hold | hnew
      · rcases h7 c hold with ⟨hmark, i, hi⟩
        exact ⟨hmark, i, fmono c i hi⟩
      · have hcn : c ∈ cbNexts E tiles b0 p := (List.mem_filter.mp hnew).1
        have hmark : E.is_all_marked c = true := by
          have := (List.mem_filter.mp hnew).2
          simpa using this
        exact ⟨hmark, fkey (c, [b0]) (List.mem_map.mpr ⟨c, hcn, rfl⟩)⟩
    · intro b i hbi
      exact fmono b i hbi

lemma cbHandles_ok {B T P TP : Type} [DecidableEq B] [DecidableEq TP]
    (E : ExtOps B T P TP) (tiles : List T) (board : B) :
    ∀ (bs : List B) (acc : CbState B), CbInv E board acc →
      (∀ b ∈ bs, ∃ i, alookup acc.hm b = some i) →
      ∃ st2, foldOpt cbMergeHandle acc (bs.map (cbExpand E tiles)) = some st2 ∧
        CbInv E board st2 := by
  intro bs
  induction bs with
  | nil =>
    intro acc hInv _
    exact ⟨acc, rfl, hInv⟩
  | cons b0 bs ih =>
    intro acc hInv hbs
    rcases cbMergeHandle_ok E tiles board acc b0 hInv
      (hbs b0 (List.mem_cons_self _ _)) with ⟨st1, hst1, hInv1, hmono⟩
    have hbs1 : ∀ b ∈ bs, ∃ i, alookup st1.hm b = some i := by
      intro b hb
      rcases hbs b (List.mem_cons_of_mem _ hb) with ⟨i, hi⟩
      exact ⟨i, hmono b i hi⟩
    rcases ih st1 hInv1 hbs1 with ⟨st2, hst2, hInv2⟩
    refine ⟨st2, ?_, hInv2⟩
    rw [List.map_cons]
    unfold foldOpt
    simp only [hst1]
    exact hst2

lemma cbLevel_ok {B T P TP : Type} [DecidableEq B] [DecidableEq TP]
    (E : ExtOps B T P TP) (tiles : List T) (board : B) (st : CbState B)
    (hInv : CbInv E board st) :
    ∃ st2, cbLevel E tiles st = some st2 ∧ CbInv E board st2 := by
  obtain ⟨h1, h2, h3, h4, h5, h6, h7⟩ := hInv
  have hInv0 : CbInv E board ⟨[], st.completed, st.g, st.hm, st.hashm⟩ :=
    ⟨h1, h2, h3, h4, h5, fun b hb => absurd hb (List.not_mem_nil b), h7⟩
  rcases cbHandles_ok E tiles board st.stack
    ⟨[], st.completed, st.g, st.hm, st.hashm⟩ hInv0 h6 with ⟨st2, hst2, hInv2⟩
  exact ⟨st2, hst2, hInv2⟩

lemma cbLoop_ok {B T P TP : Type} [DecidableEq B] [DecidableEq TP]
    (E : ExtOps B T P TP) (tiles : List T) (board : B) :
    ∀ (fuel : Nat) (st : CbState B), CbInv E board st →
      (cbLoop E tiles fuel st = Res.panicked → False) ∧
      (∀ st2, cbLoop E tiles fuel st = Res.ok st2 → CbInv E board st2) := by
  intro fuel
  induction fuel with
  | zero =>
    intro st hInv
    constructor
    · intro h
      by_cases he : st.stack.isEmpty <;> simp [cbLoop, he] at h
    · intro st2 h
      by_cases he : st.stack.isEmpty
      · simp [cbLoop, he] at h
        rwa [← h]
      · simp [cbLoop, he] at h
  | succ fuel ih =>
    intro st hInv
    by_cases he : st.stack.isEmpty
    · constructor
      · intro h
        simp [cbLoop, he] at h
      · intro st2 h
        simp [cbLoop, he] at h
        rwa [← h]
    · rcases cbLevel_ok E tiles board st hInv with ⟨st1, hst1, hInv1⟩
      have hred : cbLoop E tiles (fuel + 1) st = cbLoop E tiles fuel st1 := by
        simp [cbLoop, he, hst1]
      rw [hred]
      exact ih st1 hInv1

lemma cbFinish_fold {B T P TP : Type} [DecidableEq B] (E : ExtOps B T P TP)
    (arena : List B) (hm : List (B × Nat)) (h1 : hm = withIdx arena 0) :
    ∀ (cs : List B) (ci : Option Nat),
      (∀ c ∈ cs, E.is_all_marked c = true ∧ ∃ i, alookup hm c = some i) →
      (ci = none ∨ ∃ i c, ci = some i ∧ arena.get? i = some c ∧
        E.is_all_marked c = true) →
      ∃ ci2, foldOpt (fun _ c =>
          match alookup hm c with
          | none => none
          | some i => some (some i)) ci cs = some ci2 ∧
        (ci2 = none ∨ ∃ i c, ci2 = some i ∧ arena.get? i = some c ∧
          E.is_all_marked c = true) := by
  intro cs
  induction cs with
  | nil =>
    intro ci _ hP
    exact ⟨ci, rfl, hP⟩
  | cons c cs ih =>
    intro ci hcs hP
    rcases hcs c (List.mem_cons_self _ _) with ⟨hmark, i, hi⟩
    have hget : arena.get? i = some c := by
      rw [h1] at hi
      rcases alookup_withIdx arena 0 c i hi with ⟨j, hj, hg, _⟩
      rwa [show i = j from by omega]
    rcases ih (some i) (fun q hq => hcs q (List.mem_cons_of_mem _ hq))
      (Or.inr ⟨i, c, rfl, hget, hmark⟩) with ⟨ci2, hfold, hP2⟩
    refine ⟨ci2, ?_, hP2⟩
    unfold foldOpt
    simp only [hi]
    exact hfold

lemma cbFinish_ok {B T P TP : Type} [DecidableEq B] (E : ExtOps B T P TP)
    (board : B) (st : CbState B) (hInv : CbInv E board st) :
    ∃ g, cbFinish st = some g ∧
      g.nodes_arena = st.g.nodes_arena ∧
      g.nodes_arena_index = st.g.nodes_arena_index ∧
      (g.complete_index = none ∨ ∃ i c, g.complete_index = some i ∧
        st.g.nodes_arena.get? i = some c ∧ E.is_all_marked c = true) := by
  obtain ⟨h1, h2, h3, h4, h5, h6, h7⟩ := hInv
  rcases cbFinish_fold E st.g.nodes_arena st.hm h1 st.completed
    st.g.complete_index h7 (Or.inl h5) with ⟨ci2, hfold, hP⟩
  refine ⟨⟨st.g.nodes_arena, st.g.nodes_arena_index, st.g.edges, ci2⟩, ?_, rfl, rfl, hP⟩
  simp only [cbFinish, hfold]

lemma compute_boardgraph_cases {B T P TP : Type} [DecidableEq B] [DecidableEq TP]
    (E : ExtOps B T P TP) (tiles : List T) (board : B) (fuel : Nat) :
    compute_boardgraph E tiles board fuel = Res.fuelout ∨
    ∃ g, compute_boardgraph E tiles board fuel = Res.ok g ∧
      g.nodes_arena.head? = some board ∧
      g.nodes_arena_index = g.nodes_arena.length ∧
      g.nodes_arena.Nodup ∧
      (g.complete_index = none ∨ ∃ i c, g.complete_index = some i ∧
        g.nodes_arena.get? i = some c ∧ E.is_all_marked c = true) := by
  have hInv0 : CbInv E board
      ⟨[board], [], ⟨[board], 1, [], none⟩, [(board, 0)], []⟩ := by
    refine ⟨rfl, rfl, by simp, rfl, rfl, ?_, ?_⟩
    · intro b hb
      rcases List.mem_singleton.mp hb with rfl
      exact ⟨0, by simp [alookup]⟩
    · intro c hc
      cases hc
  have hshape : compute_boardgraph E tiles board fuel =
      (match cbLoop E tiles fuel
          ⟨[board], [], ⟨[board], 1, [], none⟩, [(board, 0)], []⟩ with
        | Res.ok st =>
          (match cbFinish st with
            | some g => Res.ok g
            | none => Res.panicked)
        | Res.panicked => Res.panicked
        | Res.fuelout => Res.fuelout) := rfl
  rw [hshape]
  cases hloop : cbLoop E tiles fuel
      ⟨[board], [], ⟨[board], 1, [], none⟩, [(board, 0)], []⟩ with
  | ok st =>
    have hInvst := (cbLoop_ok E tiles board fuel _ hInv0).2 st hloop
    obtain ⟨g1, g2, g3, g4, g5, g6, g7⟩ := hInvst
    rcases cbFinish_ok E board st ⟨g1, g2, g3, g4, g5, g6, g7⟩ with
      ⟨g, hg, hga, hgi, hgc⟩
    right
    refine ⟨g, ?_, ?_, ?_, ?_, ?_⟩
    · simp only [hg]
    · rw [hga]
      exact g4
    · rw [hga, hgi]
      exact g2
    · rw [hga]
      exact g3
    · rcases hgc with hnone | ⟨i, c, hci, hget, hmark⟩
      · exact Or.inl hnone
      · refine Or.inr ⟨i, c, hci, ?_, hmark⟩
        rw [hga]
        exact hget
  | panicked => exact absurd hloop ((cbLoop_ok E tiles board fuel _ hInv0).1)
  | fuelout =>
    left
    rfl

lemma edge_fold_arena {B : Type} [DecidableEq B] (hm2 : List (B × Nat)) (node : Nat) :
    ∀ (v : List B) (g g2 : BoardGraph B),
      foldOpt (fun g p =>
        match alookup hm2 p with
        | none => none
        | some pi => BoardGraph.add_edge g pi node) g v = some g2 →
      g2.nodes_arena = g.nodes_arena := by
  intro v
  induction v with
  | nil =>
    intro g g2 h
    have h2 := Option.some.inj h
    rw [← h2]
  | cons p v ih =>
    intro g g2 h
    unfold foldOpt at h
    cases hp : alookup hm2 p with
    | none => simp [hp] at h
    | some pi =>
      simp only [hp] at h
      cases hae : BoardGraph.add_edge g pi node with
      | none => simp [hae] at h
      | some g3 =>
        simp only [hae] at h
        rw [ih g3 g2 h]
        exact (add_edge_parts g g3 pi node hae).1

lemma insertSet_idem {α : Type} [DecidableEq α] (l : List α) (x : α) :
    insertSet (insertSet l x) x = insertSet l x := by
  have hx : x ∈ insertSet l x := mem_insertSet.mpr (Or.inr rfl)
  show (if x ∈ insertSet l x then insertSet l x else insertSet l x ++ [x]) =
    insertSet l x
  rw [if_pos hx]

lemma edgeInsert_idem :
    ∀ (e : List (Nat × List Nat)) (s t : Nat),
      edgeInsert (edgeInsert e s t) s t = edgeInsert e s t := by
  intro e
  induction e with
  | nil =>
    intro s t
    simp [edgeInsert, insertSet]
  | cons kv rest ih =>
    intro s t
    obtain ⟨k, ts⟩ := kv
    by_cases hs : s = k
    · subst hs
      simp [edgeInsert, insertSet_idem]
    · simp [edgeInsert, hs, ih]

/-- C9: compute_boardgraph never panics: for every interface instance, board,
tileset and fuel value, every hashmap lookup it performs finds its key and
the bounds assertion in add_edge holds for both endpoints (the target was
inserted into the arena by the dedup-lookup-or-insert immediately before, the
source by its predecessor's level), so the result is a graph or fuel
exhaustion, never the panic outcome. -/
theorem c9_no_panic {B T P TP : Type} [DecidableEq B] [DecidableEq TP]
    (E : ExtOps B T P TP) (tiles : List T) (board : B) (fuel : Nat) :
    (compute_boardgraph E tiles board fuel).isPanic = false := by
  rcases compute_boardgraph_cases E tiles board fuel with h | ⟨g, h, _⟩
  · rw [h]
    rfl
  · rw [h]
    rfl

/-- C8: graph-arena deduplication.  (a) Every graph compute_boardgraph
returns has a duplicate-free node arena (the loop invariant maintains the
arena as the image of the dedup map, so a board reached again reuses its
slot); (b) when the dedup map already holds an index for the observed board,
the merge step allocates no new arena slot; (c) add_edge is idempotent:
observing the same (source, target) edge again leaves the graph unchanged,
because edges are sets. -/
theorem c8_dedup {B T P TP : Type} [DecidableEq B] [DecidableEq TP]
    (E : ExtOps B T P TP) (tiles : List T) (board : B) :
    (∀ (fuel : Nat) (g : BoardGraph B),
      compute_boardgraph E tiles board fuel = Res.ok g → g.nodes_arena.Nodup) ∧
    (∀ (st : CbState B) (kv : B × List B) (i : Nat),
      alookup st.hm kv.1 = some i →
      ∀ st2, cbMergeEntry st kv = some st2 →
        st2.g.nodes_arena = st.g.nodes_arena) ∧
    (∀ (g : BoardGraph B) (s t : Nat) (g2 : BoardGraph B),
      BoardGraph.add_edge g s t = some g2 →
        BoardGraph.add_edge g2 s t = some g2) := by
  refine ⟨?_, ?_, ?_⟩
  · intro fuel g hok
    rcases compute_boardgraph_cases E tiles board fuel with hf | ⟨g2, hok2, _, _, hnd, _⟩
    · rw [hok] at hf
      cases hf
    · rw [hok] at hok2
      have hg := Res.ok.inj hok2
      rw [← hg] at hnd
      exact hnd
  · intro st kv i hk st2 hst2
    simp only [cbMergeEntry, hk] at hst2
    cases hfold : foldOpt (fun g p =>
        match alookup st.hm p with
        | none => none
        | some pi => BoardGraph.add_edge g pi i) st.g kv.2 with
    | none => rw [hfold] at hst2; cases hst2
    | some g2 =>
      rw [hfold] at hst2
      have h2 := Option.some.inj hst2
      rw [← h2]
      exact edge_fold_arena st.hm i kv.2 st.g g2 hfold
  · intro g s t g2 h
    unfold BoardGraph.add_edge at h
    by_cases hc : s < g.nodes_arena_index ∧ t < g.nodes_arena_index
    · rw [if_pos hc] at h
      have h2 := Option.some.inj h
      rw [← h2]
      simp [BoardGraph.add_edge, hc, edgeInsert_idem]
    · rw [if_neg hc] at h
      cases h

/-- C8 (witness): the graph built from extDup has a duplicate-free arena; a
merge step for a board that already has a slot (board 1 at index 1) leaves
the arena untouched; re-adding the existing edge 0 to 1 leaves the graph
unchanged. -/
theorem c8_witness :
    exG1.nodes_arena.Nodup ∧
    ((⟨[], [], exG1, [(0, 0), (1, 1)], [(1, [0])]⟩ : CbState Nat).g.nodes_arena =
      (⟨[], [], exG1, [(0, 0), (1, 1)], []⟩ : CbState Nat).g.nodes_arena) ∧
    BoardGraph.add_edge exG1 0 1 = some exG1 :=
  ⟨(c8_dedup extDup [()] 0).1 2 exG1 (by decide),
   (c8_dedup extDup [()] 0).2.1 ⟨[], [], exG1, [(0, 0), (1, 1)], []⟩ (1, [0]) 1
     (by decide) ⟨[], [], exG1, [(0, 0), (1, 1)], [(1, [0])]⟩ (by decide),
   (c8_dedup extDup [()] 0).2.2 ⟨[0, 1], 2, [], some 1⟩ 0 1 exG1 (by decide)⟩

/-- C10: every graph compute_boardgraph returns stores the initial board at
arena index 0 (it is the first board pushed), keeps nodes_arena_index equal
to the arena length, and when complete_index is Some i then i is a valid
arena index whose stored board is fully marked. -/
theorem c10_graph_shape {B T P TP : Type} [DecidableEq B] [DecidableEq TP]
    (E : ExtOps B T P TP) (tiles : List T) (board : B) (fuel : Nat)
    (g : BoardGraph B)
    (h : compute_boardgraph E tiles board fuel = Res.ok g) :
    g.nodes_arena.head? = some board ∧
    g.nodes_arena_index = g.nodes_arena.length ∧
    (∀ i, g.complete_index = some i →
      ∃ c, g.nodes_arena.get? i = some c ∧ E.is_all_marked c = true) := by
  rcases compute_boardgraph_cases E tiles board fuel with hf | ⟨g2, hok, hhead, hidx, _, hcomp⟩
  · rw [h] at hf
    cases hf
  · rw [h] at hok
    have hg := Res.ok.inj hok
    rw [← hg] at hhead hidx hcomp
    refine ⟨hhead, hidx, ?_⟩
    intro i hi
    rcases hcomp with hnone | ⟨i2, c, hci, hget, hmark⟩
    · rw [hi] at hnone
      cases hnone
    · rw [hi] at hci
      have := Option.some.inj hci
      rw [this]
      exact ⟨c, hget, hmark⟩

/-- C10 (witness): the graph built from extDup has the initial board 0 at
index 0, index counter 2 equal to the arena length, and its completion node
1 holds the fully marked board 1. -/
theorem c10_witness :
    exG1.nodes_arena.head? = some 0 ∧
    exG1.nodes_arena_index = exG1.nodes_arena.length ∧
    ∃ c, exG1.nodes_arena.get? 1 = some c ∧ extDup.is_all_marked c = true :=
  ⟨(c10_graph_shape extDup [()] 0 2 exG1 (by decide)).1,
   (c10_graph_shape extDup [()] 0 2 exG1 (by decide)).2.1,
   (c10_graph_shape extDup [()] 0 2 exG1 (by decide)).2.2 1 rfl⟩
